import Mathlib

/-!
Shallow embedding of the auto-reload subsystem (`pulsar/utils/autoreload.py`)
and proofs of its specified properties.

Modelling conventions:
its dictionaries become insertion-ordered association lists, file paths are
strings (for the common-root reducer, sequences of path components, which is
what the source produces with `split(os.path.sep)` before any trie work and
what it turns back into strings with a plain separator join), modification
times are integers with the same order, and effectful collaborators
(`os.stat`, `os.path.isfile`, `observer.schedule`, `subprocess.call`) become
explicit inputs: a tick receives the stat results it would observe, the
supervisor receives the list of successive child exit codes, and so on.
-/

namespace Autoreload

/-- Association-list lookup, modelling a Python dict lookup (`d[k]` /
`d.get(k)`): the value of the first entry whose key equals `k`. -/
def lookupA {α : Type} (k : String) : List (String × α) → Option α
  | [] => none
  | kv :: rest => if k = kv.1 then some kv.2 else lookupA k rest

/-- Association-list store, modelling Python dict item assignment
(`d[k] = v`): rewrites the existing entry in place, or appends a new one. -/
def insertA {α : Type} (k : String) (v : α) : List (String × α) → List (String × α)
  | [] => [(k, v)]
  | kv :: rest => if kv.1 = k then (k, v) :: rest else kv :: insertA k v rest

/-- Sentinel exit code (`EXIT_CODE = 5`): a child exiting with this code is
asking to be respawned. -/
def EXIT_CODE : Int := 5

/-- Restart Supervisor loop `Reloader.restart_with_reloader`.  The child's
successive exit codes are supplied as a list; each iteration of the
`while True` loop spawns the child once (consuming one exit code) and keeps
looping while that code equals `EXIT_CODE`.  The result is the number of
spawns together with the first non-sentinel exit code, or `none` when the
supplied list runs out first. -/
def restart_with_reloader : List Int → Option (Nat × Int)
  | [] => none
  | exit_code :: rest =>
    if exit_code ≠ EXIT_CODE then some (1, exit_code)
    else
      match restart_with_reloader rest with
      | none => none
      | some nc => some (nc.1 + 1, nc.2)

/-- Effective tick interval set by `Reloader.__init__`, which runs
`self.interval = interval or 1`.  The argument is `none` when the parameter
was absent (Python `None`); Python `or` replaces a falsy left operand
(`None` or `0`) by `1` and keeps every other value, including negatives. -/
def init_interval (interval : Option Int) : Int :=
  match interval with
  | none => 1
  | some i => if i = 0 then 1 else i

/-- The two concrete detector classes of the module. -/
inductive ReloaderKind where
  | stat
  | watchdog
deriving DecidableEq

/-- The module-level `reloaders` registry: `stat` is always registered;
when the watchdog `Observer` import succeeded, `watchdog` is registered and
`auto` aliases it, otherwise `auto` aliases the stat reloader and there is
no `watchdog` entry at all. -/
def reloaders (observer_available : Bool) : List (String × ReloaderKind) :=
  if observer_available then
    [( "stat", ReloaderKind.stat), ( "watchdog", ReloaderKind.watchdog),
     ( "auto", ReloaderKind.watchdog)]
  else
    [( "stat", ReloaderKind.stat), ( "auto", ReloaderKind.stat)]

/-- Outcome of the module-level `start` entry point. -/
inductive StartOutcome where
  | keyError
  | runDetector (k : ReloaderKind)
  | superviseChild (k : ReloaderKind)
deriving DecidableEq

/-- The module-level `start(reloader_type, interval)`: the very first step is
`reloaders[reloader_type]`, so a name missing from the registry raises
`KeyError` before any detector object is constructed and before any child is
spawned.  Otherwise the resolved detector either runs directly (when the
`PULSAR_RUN_MAIN` marker is set, i.e. this is the supervised child) or the
supervisor spawn loop is entered. -/
def start (observer_available : Bool) (reloader_type : String)
    (run_main : Bool) : StartOutcome :=
  match lookupA reloader_type (reloaders observer_available) with
  | none => StartOutcome.keyError
  | some k =>
    if run_main then StartOutcome.runDetector k else StartOutcome.superviseChild k

/-- Python `str.endswith(t)`, as a check on the character sequences of the
two strings. -/
def endswith (s t : String) : Bool := decide (t.toList <:+ s.toList)

/-- Python `str.startswith(t)`, as a check on the character sequences of the
two strings. -/
def startswith (s t : String) : Bool := decide (t.toList <+: s.toList)

/-- Python `s[:-1]`: the string without its final character. -/
def drop_last (s : String) : String := String.mk s.toList.dropLast

/-- Core of `os.path.dirname` (POSIX flavour) on a character sequence:
everything up to and including the final separator, with trailing separators
then stripped unless the head consists of separators only. -/
def dirnameL (cs : List Char) : List Char :=
  let i := cs.length - (cs.reverse.takeWhile (fun c => c ≠ '/')).length
  let head := cs.take i
  if head ≠ [] ∧ ¬ head.all (fun c => c = '/') then
    (head.reverse.dropWhile (fun c => c = '/')).reverse
  else head

/-- Python `os.path.dirname` on a path string. -/
def dirname (p : String) : String := String.mk (dirnameL p.toList)

/-- Python `s[-4:]`: the final four characters of the string (the whole
string when it is shorter). -/
def last4 (s : String) : List Char := s.toList.drop (s.toList.length - 4)

/-- Suffix normalization performed by `_iter_module_files`: a
compiled-artifact path (`.pyc` / `.pyo`) becomes its source counterpart by
dropping the final character; anything else is returned unchanged. -/
def normalize_source (f : String) : String :=
  if last4 f = [ '.', 'p', 'y', 'c'] ∨ last4 f = [ '.', 'p', 'y', 'o'] then drop_last f
  else f

/-- WatchdogReloader.check_modification, the notification callback.  The
result lists the names passed to `trigger_reload`, in order: the path itself
when it is one of the extra files; then, when the path's directory starts
with one of the currently observed roots, the source counterpart for a
compiled artifact (final character dropped), or the path itself for a
source file. -/
def check_modification (extra_files observable_paths : List String)
    (filename : String) : List String :=
  (if filename ∈ extra_files then [filename] else []) ++
    (if observable_paths.any (fun p => startswith (dirname filename) p) then
      if endswith filename ".pyc" || endswith filename ".pyo" then [drop_last filename]
      else if endswith filename ".py" then [filename]
      else []
    else [])

/-- The while-loop of `_iter_module_files` that ascends the directory chain
of a reported location until an existing file is found, giving up once
`dirname` reaches a fixed point (Python `break`, which skips the `else`
clause and hence the yield).  Each non-final step strictly shortens the
path, so `length + 1` steps of fuel always suffice. -/
def ascendA (isfile : String → Bool) : Nat → String → Option String
  | 0, _ => none
  | fuel + 1, filename =>
    if isfile filename then some filename
    else
      if dirname filename = filename then none
      else ascendA isfile fuel (dirname filename)

/-- One location's contribution to `_iter_module_files`: a module with no
`__file__` (or a falsy empty one) is skipped; otherwise ascend to an
existing file and normalize a compiled-artifact suffix. -/
def module_file (isfile : String → Bool) : Option String → Option String
  | none => none
  | some filename =>
    if filename = "" then none
    else (ascendA isfile (filename.toList.length + 1) filename).map normalize_source

/-- The `_iter_module_files` generator: the `__file__` attributes of the
loaded modules (`none` for a module without one) are supplied as a list and
`os.path.isfile` as a predicate; the yields are collected in order.  The
source performs no deduplication. -/
def _iter_module_files (isfile : String → Bool)
    (locations : List (Option String)) : List String :=
  locations.filterMap (module_file isfile)

namespace StatReloader

/-- One tick of `StatReloader.run`.  `files` is the sequence of paths the
tick iterates over (`chain(_iter_module_files(), self.extra_files)`), each
paired with the result its `os.stat(...).st_mtime` call produces (`none`
models `OSError`, i.e. the `continue` branch); `mtimes` is the
`self.mtimes` table.  The result is the table as left behind by the tick
together with the filename passed to `trigger_reload`, or `none` when the
tick fell through to `self.sleep()`. -/
def run : List (String × Option Int) → List (String × Int) →
    List (String × Int) × Option String
  | [], mtimes => (mtimes, none)
  | (filename, statr) :: rest, mtimes =>
    match statr with
    | none => run rest mtimes
    | some mtime =>
      match lookupA filename mtimes with
      | none => run rest (insertA filename mtime mtimes)
      | some old_time =>
        if old_time < mtime then (mtimes, some filename) else run rest mtimes

end StatReloader

namespace WatchdogReloader

/-- The watch-registration loop inside `WatchdogReloader.run`: for each
desired path not yet present in the `self.watches` table, attempt to
register a watch — `schedule path = some tok` models a successful
`observer.schedule(...)`, `none` an `OSError`, in which case the table
receives the `none` placeholder so the path is not retried on later ticks.
The second component records the paths for which registration was
attempted. -/
def watch_loop (schedule : String → Option Nat) :
    List String → List (String × Option Nat) → List String →
      List (String × Option Nat) × List String
  | [], watches, attempts => (watches, attempts)
  | path :: rest, watches, attempts =>
    match lookupA path watches with
    | some _ => watch_loop schedule rest watches attempts
    | none =>
      watch_loop schedule rest (insertA path (schedule path) watches) (attempts ++ [path])

/-- One tick of `WatchdogReloader.run` restricted to its watch-table
maintenance: register newly desired paths (recording failures as
placeholders), then drop the table entries whose path is no longer desired
(the `to_delete` set), unscheduling the non-placeholder ones. -/
def run_update (schedule : String → Option Nat)
    (watches : List (String × Option Nat)) (paths : List String) :
    List (String × Option Nat) × List String :=
  let r := watch_loop schedule paths watches []
  (r.1.filter (fun kv => paths.contains kv.1), r.2)

end WatchdogReloader

/-- The transient prefix tree built inside `_find_common_roots`: a nested
Python dict mapping a path component to a child node.  Dicts become
insertion-ordered association lists here. -/
inductive Trie where
  | node : List (String × Trie) → Trie

/-- Apply `f` to the child of a node at component `c`, modelling
`node.setdefault(chunk, {})` followed by mutation of the returned child:
an existing entry is rewritten in place, a missing one is appended as a
fresh empty child first. -/
def updAssoc (c : String) (f : Trie → Trie) : List (String × Trie) → List (String × Trie)
  | [] => [(c, f (Trie.node []))]
  | kt :: cs => if kt.1 = c then (kt.1, f kt.2) :: cs else kt :: updAssoc c f cs

/-- One iteration of the insertion loop of `_find_common_roots`: walk (and
create) trie nodes along the path's component chain, then clear the children
of the terminal node (`node.clear()`). -/
def insertClear : List String → Trie → Trie
  | [], _ => Trie.node []
  | c :: rest, Trie.node cs => Trie.node (updAssoc c (fun t => insertClear rest t) cs)

mutual
/-- The `_walk` recursion of `_find_common_roots`: a node with no children
contributes the component path leading to it, an internal node contributes
whatever its children contribute. -/
def leavesT : Trie → List (List String)
  | Trie.node [] => [[]]
  | Trie.node (kt :: cs) => leavesL (kt :: cs)

/-- Leaves contributed by a list of children, each extended with the child's
key component. -/
def leavesL : List (String × Trie) → List (List String)
  | [] => []
  | (k, t) :: cs => (leavesT t).map (fun q => k :: q) ++ leavesL cs
end

/-- Stable insertion into a component-count-descending list: the element is
placed before the first entry that is not longer. -/
def insLen (x : List String) : List (List String) → List (List String)
  | [] => [x]
  | y :: ys => if y.length ≤ x.length then x :: y :: ys else y :: insLen x ys

/-- Stable sort by decreasing component count, modelling
`sorted(paths, key=len, reverse=True)`. -/
def sortLenDesc : List (List String) → List (List String)
  | [] => []
  | x :: xs => insLen x (sortLenDesc xs)

/-- The Common-Root Reducer `_find_common_roots`, on path component
sequences: the source splits every path string on the separator before any
trie work (`x.split(os.path.sep)`) and joins the resulting component
sequences back with a plain separator at the very end, so it is modelled
here directly on those sequences.  Deepest paths are inserted first, each
insertion clearing its terminal node, and the leaves of the resulting trie
are the reduced roots. -/
def _find_common_roots (paths : List (List String)) : List (List String) :=
  leavesT ((sortLenDesc paths).foldl (fun t p => insertClear p t) (Trie.node []))

/-- Well-formedness of a trie: the children of every node carry pairwise
distinct keys, as the keys of a Python dict are.  Every trie built by
`_find_common_roots` satisfies it. -/
inductive WFT : Trie → Prop where
  | node : ∀ cs, (cs.map Prod.fst).Nodup → (∀ kt ∈ cs, WFT kt.2) → WFT (Trie.node cs)

/-- Reading the characters of `drop_last` is dropping the last character. -/
theorem toList_drop_last (s : String) : (drop_last s).toList = s.toList.dropLast := rfl

/-- Dict lookup after a dict store. -/
theorem lookupA_insertA {α : Type} (k k2 : String) (v : α) (m : List (String × α)) :
    lookupA k (insertA k2 v m) = if k = k2 then some v else lookupA k m := by
  induction m with
  | nil => simp [insertA, lookupA]
  | cons kv rest ih =>
    simp only [insertA]
    by_cases h : kv.1 = k2
    · subst h
      by_cases hk : k = kv.1 <;> simp [lookupA, hk]
    · simp only [if_neg h, lookupA, ih]
      by_cases hk : k = kv.1
      · have hne : k ≠ k2 := by rw [hk]; exact h
        simp [hk, hne, h]
      · simp [hk]

/-- Helper for C6: a path ending in a dot-p-y-followed-by-one-character
suffix ends in the source suffix once its final character is dropped. -/
theorem drop_last_py_of_suffix (filename : String) (c : Char)
    (h : ([ '.', 'p', 'y', c] : List Char) <:+ filename.toList) :
    endswith (drop_last filename) ".py" = true := by
  obtain ⟨l, hl⟩ := h
  have h2 : (drop_last filename).toList = l ++ [ '.', 'p', 'y'] := by
    have he : l ++ [ '.', 'p', 'y', c] = (l ++ [ '.', 'p', 'y']) ++ [c] := by simp
    rw [toList_drop_last, ← hl, he, List.dropLast_concat]
  have h3 : (".py").toList <:+ (drop_last filename).toList := by
    rw [h2]
    exact List.suffix_append _ _
  simp only [endswith]
  exact decide_eq_true h3

/-- C6: a notification about a compiled-artifact path whose directory lies
under an observed root triggers a reload for the source counterpart of that
path — the same path with the trailing character removed, which carries the
source suffix. -/
theorem c6_compiled_artifact (extra_files observable_paths : List String)
    (filename : String)
    (hroot : observable_paths.any (fun p => startswith (dirname filename) p) = true)
    (hext : endswith filename ".pyc" = true ∨ endswith filename ".pyo" = true) :
    drop_last filename ∈ check_modification extra_files observable_paths filename ∧
      endswith (drop_last filename) ".py" = true := by
  constructor
  · have hor : (endswith filename ".pyc" || endswith filename ".pyo") = true := by
      rcases hext with h | h <;> simp [h]
    have hcm : check_modification extra_files observable_paths filename
        = (if filename ∈ extra_files then [filename] else []) ++ [drop_last filename] := by
      simp [check_modification, hroot, hor]
    rw [hcm]
    exact List.mem_append_right _ (List.mem_singleton.mpr rfl)
  · rcases hext with h | h
    · exact drop_last_py_of_suffix filename 'c' (by simpa [endswith] using h)
    · exact drop_last_py_of_suffix filename 'o' (by simpa [endswith] using h)

/-- C6 witness: a `.pyc` artifact under the observed root `/a/b` is
reported against its `.py` source counterpart. -/
theorem c6_compiled_artifact_witness :
    (([ "/a/b"] : List String).any (fun p => startswith (dirname "/a/b/c.pyc") p) = true) ∧
      drop_last "/a/b/c.pyc" ∈ check_modification [] [ "/a/b"] "/a/b/c.pyc" ∧
      endswith (drop_last "/a/b/c.pyc") ".py" = true :=
  ⟨by decide,
    (c6_compiled_artifact [] [ "/a/b"] "/a/b/c.pyc" (by decide) (Or.inl (by decide))).1,
    (c6_compiled_artifact [] [ "/a/b"] "/a/b/c.pyc" (by decide) (Or.inl (by decide))).2⟩

/-- C9 counterexample: two loaded modules report the same `__file__` (as
really happens for a module aliased under two names in `sys.modules`), and
the walk yields that path twice — the produced sequence is not
deduplicated. -/
theorem c9_dedup_cex :
    ¬ (_iter_module_files (fun s => s == "/a/b.py")
        [some "/a/b.py", some "/a/b.py"]).Nodup := by decide

/-- C9 (amended): every active source location that resolves — a nonempty
`__file__` whose directory-chain walk reaches an existing file — contributes
its suffix-normalized resolved path to the output; the output is however not
deduplicated, so several locations resolving to the same file repeat it. -/
theorem c9_module_files_amended (isfile : String → Bool)
    (locations : List (Option String)) (f g : String)
    (hmem : some f ∈ locations) (hne : f ≠ "")
    (hasc : ascendA isfile (f.length + 1) f = some g) :
    normalize_source g ∈ _iter_module_files isfile locations := by
  have hmf : module_file isfile (some f) = some (normalize_source g) := by
    simp [module_file, hne, hasc]
  exact List.mem_filterMap.mpr ⟨some f, hmem, hmf⟩

/-- C9 witness: a resolving location's normalized path is in the output. -/
theorem c9_module_files_amended_witness :
    some "/a/b.py" ∈ [some "/a/b.py", none] ∧
      normalize_source "/a/b.py" ∈
        _iter_module_files (fun s => s == "/a/b.py") [some "/a/b.py", none] :=
  ⟨by decide,
    c9_module_files_amended (fun s => s == "/a/b.py") [some "/a/b.py", none]
      "/a/b.py" "/a/b.py" (by decide) (by decide) (by decide)⟩

/-- A table entry that is present keeps its value for the rest of the tick:
the scan only inserts baselines for paths that have none. -/
theorem statRun_preserves (files : List (String × Option Int)) :
    ∀ (m : List (String × Int)) (k : String), lookupA k m ≠ none →
      lookupA k (StatReloader.run files m).1 = lookupA k m := by
  induction files with
  | nil => intro m k _; rfl
  | cons fs rest ih =>
    intro m k hk
    obtain ⟨filename, statr⟩ := fs
    cases statr with
    | none => simpa only [StatReloader.run] using ih m k hk
    | some mtime =>
      cases hl : lookupA filename m with
      | none =>
        have hne : k ≠ filename := by
          intro h; rw [h] at hk; exact hk hl
        have h1 : lookupA k (insertA filename mtime m) = lookupA k m := by
          rw [lookupA_insertA]; simp [hne]
        simp only [StatReloader.run, hl]
        rw [ih _ k (by rw [h1]; exact hk), h1]
      | some old =>
        by_cases hcmp : old < mtime
        · simp [StatReloader.run, hl, hcmp]
        · simp only [StatReloader.run, hl, if_neg hcmp]
          exact ih m k hk

/-- C4: on a tick that observes each path at most once, a reload is
triggered precisely when some observed path already has a stored baseline
strictly below its current modification time; and when the tick does not
trigger, every path observed for the first time merely has its current
modification time recorded as the new baseline. -/
theorem c4_first_observation_baseline (files : List (String × Option Int)) :
    ∀ m : List (String × Int), (files.map Prod.fst).Nodup →
      (((StatReloader.run files m).2 ≠ none ↔
        ∃ f t old, (f, some t) ∈ files ∧ lookupA f m = some old ∧ old < t) ∧
      ((StatReloader.run files m).2 = none →
        ∀ f t, (f, some t) ∈ files → lookupA f m = none →
          lookupA f (StatReloader.run files m).1 = some t)) := by
  induction files with
  | nil =>
    intro m _
    refine ⟨by simp [StatReloader.run], ?_⟩
    intro _ f t hmem
    simp at hmem
  | cons fs rest ih =>
    intro m hnd
    obtain ⟨f0, statr⟩ := fs
    simp only [List.map_cons, List.nodup_cons] at hnd
    obtain ⟨hnd0, hndr⟩ := hnd
    have hne_rest : ∀ {f : String} {t : Int}, (f, some t) ∈ rest → f ≠ f0 := by
      intro f t hmem h
      apply hnd0
      have hfm : f ∈ rest.map Prod.fst := List.mem_map_of_mem Prod.fst hmem
      rwa [h] at hfm
    cases statr with
    | none =>
      have hrun : StatReloader.run ((f0, none) :: rest) m = StatReloader.run rest m := by
        simp [StatReloader.run]
      rw [hrun]
      obtain ⟨ih1, ih2⟩ := ih m hndr
      refine ⟨?_, ?_⟩
      · rw [ih1]
        constructor
        · rintro ⟨f, t, old, hmem, hl, hlt⟩
          exact ⟨f, t, old, List.mem_cons_of_mem _ hmem, hl, hlt⟩
        · rintro ⟨f, t, old, hmem, hl, hlt⟩
          rcases List.mem_cons.mp hmem with heq | hmem2
          · simp at heq
          · exact ⟨f, t, old, hmem2, hl, hlt⟩
      · intro hnone f t hmem hl
        rcases List.mem_cons.mp hmem with heq | hmem2
        · simp at heq
        · exact ih2 hnone f t hmem2 hl
    | some t0 =>
      cases hl0 : lookupA f0 m with
      | none =>
        have hrun : StatReloader.run ((f0, some t0) :: rest) m
            = StatReloader.run rest (insertA f0 t0 m) := by
          simp [StatReloader.run, hl0]
        rw [hrun]
        obtain ⟨ih1, ih2⟩ := ih (insertA f0 t0 m) hndr
        have hlook : ∀ {f : String}, f ≠ f0 →
            lookupA f (insertA f0 t0 m) = lookupA f m := by
          intro f hf
          rw [lookupA_insertA]
          simp [hf]
        refine ⟨?_, ?_⟩
        · rw [ih1]
          constructor
          · rintro ⟨f, t, old, hmem, hl, hlt⟩
            have hf : f ≠ f0 := hne_rest hmem
            refine ⟨f, t, old, List.mem_cons_of_mem _ hmem, ?_, hlt⟩
            rwa [hlook hf] at hl
          · rintro ⟨f, t, old, hmem, hl, hlt⟩
            rcases List.mem_cons.mp hmem with heq | hmem2
            · injection heq with h1 h2
              subst h1
              rw [hl0] at hl
              exact Option.noConfusion hl
            · have hf : f ≠ f0 := hne_rest hmem2
              refine ⟨f, t, old, hmem2, ?_, hlt⟩
              rwa [hlook hf]
        · intro hnone f t hmem hl
          rcases List.mem_cons.mp hmem with heq | hmem2
          · injection heq with h1 h2
            injection h2 with h2'
            subst h1
            subst h2'
            have hp : lookupA f (insertA f t m) = some t := by
              rw [lookupA_insertA]; simp
            have hp' : lookupA f (insertA f t m) ≠ none := by simp [hp]
            rw [statRun_preserves rest _ f hp', hp]
          · have hf : f ≠ f0 := hne_rest hmem2
            exact ih2 hnone f t hmem2 (by rwa [hlook hf])
      | some old0 =>
        by_cases hcmp : old0 < t0
        · have hrun : StatReloader.run ((f0, some t0) :: rest) m = (m, some f0) := by
            simp [StatReloader.run, hl0, hcmp]
          rw [hrun]
          refine ⟨?_, ?_⟩
          · constructor
            · intro _
              exact ⟨f0, t0, old0, List.mem_cons_self _ _, hl0, hcmp⟩
            · intro _
              simp
          · intro hnone
            simp at hnone
        · have hrun : StatReloader.run ((f0, some t0) :: rest) m
              = StatReloader.run rest m := by
            simp [StatReloader.run, hl0, hcmp]
          rw [hrun]
          obtain ⟨ih1, ih2⟩ := ih m hndr
          refine ⟨?_, ?_⟩
          · rw [ih1]
            constructor
            · rintro ⟨f, t, old, hmem, hl, hlt⟩
              exact ⟨f, t, old, List.mem_cons_of_mem _ hmem, hl, hlt⟩
            · rintro ⟨f, t, old, hmem, hl, hlt⟩
              rcases List.mem_cons.mp hmem with heq | hmem2
              · injection heq with h1 h2
                injection h2 with h2'
                subst h1
                subst h2'
                rw [hl0] at hl
                injection hl with h3
                subst h3
                exact absurd hlt hcmp
              · exact ⟨f, t, old, hmem2, hl, hlt⟩
          · intro hnone f t hmem hl
            rcases List.mem_cons.mp hmem with heq | hmem2
            · injection heq with h1 h2
              subst h1
              rw [hl0] at hl
              exact Option.noConfusion hl
            · exact ih2 hnone f t hmem2 hl

/-- C4 witness: a tick over paths a (first observation) and b (baseline 1,
current time 9) with distinct paths. -/
theorem c4_first_observation_baseline_witness :
    ((([( "a", some 3), ( "b", some 9)] : List (String × Option Int)).map Prod.fst).Nodup) ∧
      (((StatReloader.run [( "a", some 3), ( "b", some 9)] [( "b", 1)]).2 ≠ none ↔
        ∃ f t old, (f, some t) ∈ ([( "a", some 3), ( "b", some 9)] : List (String × Option Int)) ∧
          lookupA f [( "b", 1)] = some old ∧ old < t) ∧
      ((StatReloader.run [( "a", some 3), ( "b", some 9)] [( "b", 1)]).2 = none →
        ∀ f t, (f, some t) ∈ ([( "a", some 3), ( "b", some 9)] : List (String × Option Int)) →
          lookupA f ([( "b", 1)] : List (String × Int)) = none →
            lookupA f (StatReloader.run [( "a", some 3), ( "b", some 9)] [( "b", 1)]).1
              = some t)) :=
  ⟨by decide,
    c4_first_observation_baseline [( "a", some 3), ( "b", some 9)] [( "b", 1)] (by decide)⟩

/-- C5: within one tick the scan stops at the first path whose current
modification time strictly exceeds its baseline: whatever paths follow the
triggering one, the outcome is unchanged — the reported path is the
triggering one and the returned table is exactly the one produced by the
prefix of the scan, so no later path is examined or re-baselined. -/
theorem c5_single_trigger (pre post : List (String × Option Int)) (f : String)
    (t old : Int) (m mfin : List (String × Int))
    (h1 : StatReloader.run pre m = (mfin, none))
    (h2 : lookupA f mfin = some old) (h3 : old < t) :
    StatReloader.run (pre ++ (f, some t) :: post) m = (mfin, some f) := by
  induction pre generalizing m with
  | nil =>
    have h1' : (m, (none : Option String)) = (mfin, none) := h1
    injection h1' with ha _
    subst ha
    simp [StatReloader.run, h2, h3]
  | cons fs pre' ih =>
    obtain ⟨g, statr⟩ := fs
    cases statr with
    | none =>
      have h1' : StatReloader.run pre' m = (mfin, none) := by
        simp only [StatReloader.run] at h1
        exact h1
      simpa [StatReloader.run] using ih m h1'
    | some t0 =>
      cases hl0 : lookupA g m with
      | none =>
        have h1' : StatReloader.run pre' (insertA g t0 m) = (mfin, none) := by
          simp only [StatReloader.run, hl0] at h1
          exact h1
        simpa [StatReloader.run, hl0] using ih (insertA g t0 m) h1'
      | some old0 =>
        by_cases hcmp : old0 < t0
        · exfalso
          have hbad : (m, some g) = (mfin, (none : Option String)) := by
            simp only [StatReloader.run, hl0, if_pos hcmp] at h1
            exact h1
          injection hbad with _ hb
          exact Option.noConfusion hb
        · have h1' : StatReloader.run pre' m = (mfin, none) := by
            simp only [StatReloader.run, hl0, if_neg hcmp] at h1
            exact h1
          simpa [StatReloader.run, hl0, hcmp] using ih m h1'

/-- C5 witness: path a does not trigger, path b triggers (baseline 2,
current 5), path c is after the trigger and is not examined. -/
theorem c5_single_trigger_witness :
    StatReloader.run [( "a", some 1)] [( "a", 1), ( "b", 2)]
        = ([( "a", 1), ( "b", 2)], none) ∧
      lookupA "b" [( "a", (1 : Int)), ( "b", 2)] = some 2 ∧ (2 : Int) < 5 ∧
      StatReloader.run ([( "a", some 1)] ++ ( "b", some 5) :: [( "c", some 9)])
          [( "a", 1), ( "b", 2)] = ([( "a", 1), ( "b", 2)], some "b") :=
  ⟨by decide, by decide, by decide,
    c5_single_trigger [( "a", some 1)] [( "c", some 9)] "b" 5 2
      [( "a", 1), ( "b", 2)] [( "a", 1), ( "b", 2)] (by decide) (by decide) (by decide)⟩

/-- Registration-loop lemma: a watch-table entry that is present keeps its
value for the rest of the registration loop. -/
theorem watch_loop_preserves (schedule : String → Option Nat)
    (rest : List String) :
    ∀ (w : List (String × Option Nat)) (att : List String) (k : String),
      lookupA k w ≠ none →
      lookupA k (WatchdogReloader.watch_loop schedule rest w att).1 = lookupA k w := by
  induction rest with
  | nil => intro w att k _; rfl
  | cons p rest' ih =>
    intro w att k hk
    cases hp : lookupA p w with
    | some tok => simpa only [WatchdogReloader.watch_loop, hp] using ih w att k hk
    | none =>
      have hne : k ≠ p := fun h => by rw [h] at hk; exact hk hp
      have h1 : lookupA k (insertA p (schedule p) w) = lookupA k w := by
        rw [lookupA_insertA]; simp [hne]
      simp only [WatchdogReloader.watch_loop, hp]
      rw [ih _ _ k (by rw [h1]; exact hk), h1]

/-- Registration-loop lemma: attempts already collected persist. -/
theorem watch_loop_att_mono (schedule : String → Option Nat)
    (rest : List String) :
    ∀ (w : List (String × Option Nat)) (att : List String) (x : String),
      x ∈ att → x ∈ (WatchdogReloader.watch_loop schedule rest w att).2 := by
  induction rest with
  | nil => intro w att x hx; exact hx
  | cons p rest' ih =>
    intro w att x hx
    cases hp : lookupA p w with
    | some tok => simpa only [WatchdogReloader.watch_loop, hp] using ih w att x hx
    | none =>
      simp only [WatchdogReloader.watch_loop, hp]
      exact ih _ _ x (List.mem_append_left _ hx)

/-- Registration-loop lemma: a desired path with no table entry yet is
attempted, and ends up mapped to its `schedule` outcome. -/
theorem watch_loop_registers (schedule : String → Option Nat)
    (rest : List String) :
    ∀ (w : List (String × Option Nat)) (att : List String) (d : String),
      d ∈ rest → lookupA d w = none →
      lookupA d (WatchdogReloader.watch_loop schedule rest w att).1 = some (schedule d) ∧
        d ∈ (WatchdogReloader.watch_loop schedule rest w att).2 := by
  induction rest with
  | nil => intro w att d hd; simp at hd
  | cons p rest' ih =>
    intro w att d hd hdw
    by_cases hpd : p = d
    · subst hpd
      simp only [WatchdogReloader.watch_loop, hdw]
      constructor
      · have h1 : lookupA p (insertA p (schedule p) w) = some (schedule p) := by
          rw [lookupA_insertA]; simp
        rw [watch_loop_preserves schedule rest' _ _ p (by simp [h1]), h1]
      · exact watch_loop_att_mono schedule rest' _ _ p
          (List.mem_append_right _ (List.mem_singleton.mpr rfl))
    · have hd' : d ∈ rest' := by
        rcases List.mem_cons.mp hd with h | h
        · exact absurd h.symm hpd
        · exact h
      cases hp : lookupA p w with
      | some tok => simpa only [WatchdogReloader.watch_loop, hp] using ih w att d hd' hdw
      | none =>
        have hdp : d ≠ p := fun h => hpd h.symm
        have h1 : lookupA d (insertA p (schedule p) w) = none := by
          rw [lookupA_insertA]; simp [hdp, hdw]
        simp only [WatchdogReloader.watch_loop, hp]
        exact ih _ _ d hd' h1

/-- Registration-loop lemma: a path with a table entry (including the
`none` placeholder) is never attempted. -/
theorem watch_loop_no_retry (schedule : String → Option Nat)
    (rest : List String) :
    ∀ (w : List (String × Option Nat)) (att : List String) (d : String),
      lookupA d w ≠ none → d ∉ att →
      d ∉ (WatchdogReloader.watch_loop schedule rest w att).2 := by
  induction rest with
  | nil => intro w att d _ hda; exact hda
  | cons p rest' ih =>
    intro w att d hdw hda
    cases hp : lookupA p w with
    | some tok =>
      simp only [WatchdogReloader.watch_loop, hp]
      exact ih w att d hdw hda
    | none =>
      have hne : d ≠ p := fun h => by rw [h] at hdw; exact hdw hp
      have h1 : lookupA d (insertA p (schedule p) w) = lookupA d w := by
        rw [lookupA_insertA]; simp [hne]
      simp only [WatchdogReloader.watch_loop, hp]
      refine ih _ _ d (by rw [h1]; exact hdw) ?_
      intro hx
      rcases List.mem_append.mp hx with h | h
      · exact hda h
      · exact hne (List.mem_singleton.mp h)

/-- Lookup is unchanged by dropping entries whose keys lie outside a list
the looked-up key belongs to. -/
theorem lookupA_filter {α : Type} (paths : List String) (k : String)
    (hP : paths.contains k = true) :
    ∀ l : List (String × α),
      lookupA k (l.filter (fun kv => paths.contains kv.1)) = lookupA k l := by
  intro l
  induction l with
  | nil => rfl
  | cons kv rest ih =>
    by_cases hPkv : paths.contains kv.1 = true
    · rw [List.filter_cons_of_pos (by exact hPkv)]
      by_cases hk : k = kv.1
      · simp [lookupA, hk]
      · simp only [lookupA, if_neg hk]
        exact ih
    · rw [List.filter_cons_of_neg (by exact hPkv)]
      have hk : ¬ k = kv.1 := by
        intro hk
        apply hPkv
        rw [← hk]
        exact hP
      rw [ih]
      simp only [lookupA, if_neg hk]

/-- C8: when registering a watch for a desired directory fails, the null
placeholder is stored for it in the watch table, every other desired
directory that was not yet watched is still attempted on the same tick, and
no registration is ever re-attempted for this directory on a later tick
(whatever the later tick's desired set and registration outcomes are). -/
theorem c8_watch_failure (schedule : String → Option Nat)
    (watches : List (String × Option Nat)) (paths : List String) (d : String)
    (hmem : d ∈ paths) (hnew : lookupA d watches = none)
    (hfail : schedule d = none) :
    lookupA d (WatchdogReloader.run_update schedule watches paths).1 = some none ∧
      (∀ p ∈ paths, lookupA p watches = none →
        p ∈ (WatchdogReloader.run_update schedule watches paths).2) ∧
      (∀ (schedule2 : String → Option Nat) (paths2 : List String),
        d ∉ (WatchdogReloader.run_update schedule2
              (WatchdogReloader.run_update schedule watches paths).1 paths2).2) := by
  have hreg := watch_loop_registers schedule paths watches [] d hmem hnew
  have hcontains : paths.contains d = true := by
    simpa using hmem
  refine ⟨?_, ?_, ?_⟩
  · show lookupA d ((WatchdogReloader.watch_loop schedule paths watches []).1.filter
        (fun kv => paths.contains kv.1)) = some none
    rw [lookupA_filter paths d hcontains, hreg.1, hfail]
  · intro p hp hpw
    exact (watch_loop_registers schedule paths watches [] p hp hpw).2
  · intro schedule2 paths2
    have hd1 : lookupA d (WatchdogReloader.run_update schedule watches paths).1 ≠ none := by
      show lookupA d ((WatchdogReloader.watch_loop schedule paths watches []).1.filter
        (fun kv => paths.contains kv.1)) ≠ none
      rw [lookupA_filter paths d hcontains, hreg.1]
      simp
    exact watch_loop_no_retry schedule2 paths2 _ [] d hd1 (by simp)

/-- C8 witness: registration fails for directory bad while directory ok is
still attempted, and bad is not retried on a second tick. -/
theorem c8_watch_failure_witness :
    ( "/bad" ∈ [ "/bad", "/ok"]) ∧
      lookupA "/bad" ([] : List (String × Option Nat)) = none ∧
      (lookupA "/bad"
          (WatchdogReloader.run_update (fun _ => none) [] [ "/bad", "/ok"]).1 = some none ∧
        (∀ p ∈ [ "/bad", "/ok"], lookupA p ([] : List (String × Option Nat)) = none →
          p ∈ (WatchdogReloader.run_update (fun _ => none) [] [ "/bad", "/ok"]).2) ∧
        (∀ (schedule2 : String → Option Nat) (paths2 : List String),
          "/bad" ∉ (WatchdogReloader.run_update schedule2
                (WatchdogReloader.run_update (fun _ => none) [] [ "/bad", "/ok"]).1
                paths2).2)) :=
  ⟨by decide, rfl,
    c8_watch_failure (fun _ => none) [] [ "/bad", "/ok"] "/bad" (by decide) rfl rfl⟩

/-- The empty trie node is well-formed. -/
theorem WFT_empty : WFT (Trie.node []) := WFT.node [] (by simp) (by simp)

/-- Updating a child never empties the children list. -/
theorem updAssoc_ne_nil (c : String) (f : Trie → Trie) (cs : List (String × Trie)) :
    updAssoc c f cs ≠ [] := by
  cases cs with
  | nil => simp [updAssoc]
  | cons kt cs' =>
    by_cases h : kt.1 = c <;> simp [updAssoc, h]

/-- Unfolding lemma for the leaves of an empty node. -/
theorem leavesT_nil : leavesT (Trie.node []) = [[]] := rfl

/-- Unfolding lemma for the leaves of the empty children list. -/
theorem leavesL_nil : leavesL [] = [] := rfl

/-- Unfolding lemma for the leaves contributed by a first child. -/
theorem leavesL_cons (k : String) (t : Trie) (cs : List (String × Trie)) :
    leavesL ((k, t) :: cs) = (leavesT t).map (fun q => k :: q) ++ leavesL cs := rfl

/-- A node with children has exactly the leaves its children contribute. -/
theorem leavesT_of_ne_nil (cs : List (String × Trie)) (h : cs ≠ []) :
    leavesT (Trie.node cs) = leavesL cs := by
  cases cs with
  | nil => exact absurd rfl h
  | cons kt cs' => rfl

/-- Membership in the leaves of a children list: some child contributes the
tail of the path, and the child's key is its head. -/
theorem leavesL_mem (cs : List (String × Trie)) (q : List String) :
    q ∈ leavesL cs ↔ ∃ kt, kt ∈ cs ∧ ∃ q2, q = kt.1 :: q2 ∧ q2 ∈ leavesT kt.2 := by
  induction cs with
  | nil => simp [leavesL_nil]
  | cons kt cs' ih =>
    obtain ⟨k, t⟩ := kt
    rw [leavesL_cons]
    constructor
    · intro h
      rcases List.mem_append.mp h with h1 | h2
      · rcases List.mem_map.mp h1 with ⟨q2, hq2, hqeq⟩
        exact ⟨(k, t), List.mem_cons_self _ _, q2, hqeq.symm, hq2⟩
      · rcases ih.mp h2 with ⟨kt', hkt', q2, hqeq, hq2⟩
        exact ⟨kt', List.mem_cons_of_mem _ hkt', q2, hqeq, hq2⟩
    · rintro ⟨kt', hkt', q2, hqeq, hq2⟩
      rcases List.mem_cons.mp hkt' with h1 | h2
      · subst h1
        exact List.mem_append.mpr (Or.inl (List.mem_map.mpr ⟨q2, hq2, hqeq.symm⟩))
      · exact List.mem_append.mpr (Or.inr (ih.mpr ⟨kt', h2, q2, hqeq, hq2⟩))

/-- Inserting a path into the empty trie (and clearing its terminal node)
makes that path the only leaf. -/
theorem leavesT_insertClear_empty (p : List String) :
    ∀ q : List String, q ∈ leavesT (insertClear p (Trie.node [])) ↔ q = p := by
  induction p with
  | nil =>
    intro q
    rw [show insertClear [] (Trie.node []) = Trie.node [] from rfl, leavesT_nil]
    simp
  | cons c rest ih =>
    intro q
    rw [show insertClear (c :: rest) (Trie.node [])
        = Trie.node [(c, insertClear rest (Trie.node []))] from rfl]
    rw [leavesT_of_ne_nil _ (by simp), leavesL_cons, leavesL_nil, List.append_nil]
    simp only [List.mem_map]
    constructor
    · rintro ⟨q2, hq2, rfl⟩
      rw [(ih q2).mp hq2]
    · intro h
      subst h
      exact ⟨rest, (ih rest).mpr rfl, rfl⟩

/-- Effect of a child update on the leaves of a node with distinct keys,
assuming the insertion effect on the updated child itself (the induction
hypothesis of `leaves_insertClear`): the inserted path becomes a leaf and
exactly the leaves comparable with it disappear. -/
theorem leavesL_updAssoc (c : String) (rest : List String)
    (IH : ∀ (u : Trie), WFT u → ∀ q : List String,
      (q ∈ leavesT (insertClear rest u) ↔
        q = rest ∨ (q ∈ leavesT u ∧ ¬ rest <+: q ∧ ¬ q <+: rest))) :
    ∀ cs : List (String × Trie), (cs.map Prod.fst).Nodup →
      (∀ kt ∈ cs, WFT kt.2) → ∀ q : List String,
      (q ∈ leavesL (updAssoc c (fun u => insertClear rest u) cs) ↔
        q = c :: rest ∨
          (q ∈ leavesL cs ∧ ¬ (c :: rest) <+: q ∧ ¬ q <+: (c :: rest))) := by
  intro cs
  induction cs with
  | nil =>
    intro _ _ q
    rw [show updAssoc c (fun u => insertClear rest u) ([] : List (String × Trie))
        = [(c, insertClear rest (Trie.node []))] from rfl,
      leavesL_cons, leavesL_nil, List.append_nil]
    simp only [List.mem_map, List.not_mem_nil, false_and, or_false]
    constructor
    · rintro ⟨q2, hq2, rfl⟩
      rw [(leavesT_insertClear_empty rest q2).mp hq2]
    · intro h
      subst h
      exact ⟨rest, (leavesT_insertClear_empty rest rest).mpr rfl, rfl⟩
  | cons kt cs' ihcs =>
    intro hnd hch q
    obtain ⟨k, t0⟩ := kt
    simp only [List.map_cons, List.nodup_cons] at hnd
    obtain ⟨hk_notin, hnd'⟩ := hnd
    have hch0 : WFT t0 := hch (k, t0) (List.mem_cons_self _ _)
    have hch' : ∀ kt ∈ cs', WFT kt.2 := fun kt h => hch kt (List.mem_cons_of_mem _ h)
    by_cases hkc : k = c
    · subst hkc
      rw [show updAssoc k (fun u => insertClear rest u) ((k, t0) :: cs')
          = (k, insertClear rest t0) :: cs' from by simp [updAssoc]]
      rw [leavesL_cons, leavesL_cons]
      have hhead : ∀ q, q ∈ leavesL cs' → ∃ k2 q2, q = k2 :: q2 ∧ k2 ≠ k := by
        intro q hq
        rcases (leavesL_mem cs' q).mp hq with ⟨kt', hkt', q2, hqe, _⟩
        refine ⟨kt'.1, q2, hqe, ?_⟩
        intro h
        apply hk_notin
        rw [← h]
        exact List.mem_map_of_mem Prod.fst hkt'
      constructor
      · intro h
        rcases List.mem_append.mp h with h1 | h2
        · rcases List.mem_map.mp h1 with ⟨q2, hq2, rfl⟩
          rcases (IH t0 hch0 q2).mp hq2 with hq2r | ⟨hq2m, hnp, hpn⟩
          · left; rw [hq2r]
          · right
            refine ⟨List.mem_append.mpr (Or.inl (List.mem_map.mpr ⟨q2, hq2m, rfl⟩)), ?_, ?_⟩
            · intro hpre
              exact hnp (List.cons_prefix_cons.mp hpre).2
            · intro hpre
              exact hpn (List.cons_prefix_cons.mp hpre).2
        · right
          rcases hhead q h2 with ⟨k2, q2, rfl, hk2⟩
          refine ⟨List.mem_append.mpr (Or.inr h2), ?_, ?_⟩
          · intro hpre
            exact hk2 (List.cons_prefix_cons.mp hpre).1.symm
          · intro hpre
            exact hk2 (List.cons_prefix_cons.mp hpre).1
      · intro h
        rcases h with rfl | ⟨hmem, hnp, hpn⟩
        · exact List.mem_append.mpr (Or.inl (List.mem_map.mpr
            ⟨rest, (IH t0 hch0 rest).mpr (Or.inl rfl), rfl⟩))
        · rcases List.mem_append.mp hmem with h1 | h2
          · rcases List.mem_map.mp h1 with ⟨q2, hq2, rfl⟩
            refine List.mem_append.mpr (Or.inl (List.mem_map.mpr ⟨q2, ?_, rfl⟩))
            refine (IH t0 hch0 q2).mpr (Or.inr ⟨hq2, ?_, ?_⟩)
            · intro hp
              exact hnp (List.cons_prefix_cons.mpr ⟨rfl, hp⟩)
            · intro hp
              exact hpn (List.cons_prefix_cons.mpr ⟨rfl, hp⟩)
          · exact List.mem_append.mpr (Or.inr h2)
    · rw [show updAssoc c (fun u => insertClear rest u) ((k, t0) :: cs')
          = (k, t0) :: updAssoc c (fun u => insertClear rest u) cs' from by
            simp [updAssoc, hkc]]
      rw [leavesL_cons, leavesL_cons]
      have ihr := ihcs hnd' hch'
      constructor
      · intro h
        rcases List.mem_append.mp h with h1 | h2
        · rcases List.mem_map.mp h1 with ⟨q2, hq2, rfl⟩
          right
          refine ⟨List.mem_append.mpr (Or.inl (List.mem_map.mpr ⟨q2, hq2, rfl⟩)), ?_, ?_⟩
          · intro hpre
            exact hkc (List.cons_prefix_cons.mp hpre).1.symm
          · intro hpre
            exact hkc (List.cons_prefix_cons.mp hpre).1
        · rcases (ihr q).mp h2 with hq | ⟨hmem, hnp, hpn⟩
          · left; exact hq
          · right
            exact ⟨List.mem_append.mpr (Or.inr hmem), hnp, hpn⟩
      · intro h
        rcases h with rfl | ⟨hmem, hnp, hpn⟩
        · exact List.mem_append.mpr (Or.inr ((ihr _).mpr (Or.inl rfl)))
        · rcases List.mem_append.mp hmem with h1 | h2
          · exact List.mem_append.mpr (Or.inl h1)
          · exact List.mem_append.mpr (Or.inr ((ihr q).mpr (Or.inr ⟨h2, hnp, hpn⟩)))

/-- Key lemma about one insertion of `_find_common_roots`: inserting a path
into a well-formed trie makes that path a leaf and removes exactly the
leaves comparable with it (its extensions, because the terminal node is
cleared, and its strict ancestors, because they gain a child on the way
down); incomparable leaves are untouched. -/
theorem leaves_insertClear (p : List String) :
    ∀ (t : Trie), WFT t → ∀ q : List String,
      (q ∈ leavesT (insertClear p t) ↔
        q = p ∨ (q ∈ leavesT t ∧ ¬ p <+: q ∧ ¬ q <+: p)) := by
  induction p with
  | nil =>
    intro t _ q
    rw [show insertClear [] t = Trie.node [] from rfl, leavesT_nil]
    simp only [List.mem_singleton]
    constructor
    · exact fun h => Or.inl h
    · rintro (h | ⟨_, hq1, _⟩)
      · exact h
      · exact absurd ⟨q, rfl⟩ hq1
  | cons c rest ih =>
    intro t hwf q
    cases t with
    | node cs =>
      cases hwf with
      | node _ hnd hch =>
        cases cs with
        | nil =>
          rw [leavesT_insertClear_empty (c :: rest) q, leavesT_nil]
          simp only [List.mem_singleton]
          constructor
          · exact fun h => Or.inl h
          · rintro (h | ⟨h0, _, hq2⟩)
            · exact h
            · subst h0
              exact absurd ⟨c :: rest, rfl⟩ hq2
        | cons kt0 cs' =>
          rw [show insertClear (c :: rest) (Trie.node (kt0 :: cs'))
              = Trie.node (updAssoc c (fun u => insertClear rest u) (kt0 :: cs'))
              from rfl,
            leavesT_of_ne_nil _ (updAssoc_ne_nil c _ _),
            leavesT_of_ne_nil (kt0 :: cs') (by simp)]
          exact leavesL_updAssoc c rest ih (kt0 :: cs') hnd hch q

/-- Every entry of an updated children list is an old entry or the updated
entry at the given key. -/
theorem mem_updAssoc (c : String) (f : Trie → Trie) :
    ∀ (cs : List (String × Trie)) (kt : String × Trie), kt ∈ updAssoc c f cs →
      kt ∈ cs ∨ ∃ t0, kt = (c, f t0) ∧ (t0 = Trie.node [] ∨ (c, t0) ∈ cs) := by
  intro cs
  induction cs with
  | nil =>
    intro kt h
    simp only [updAssoc, List.mem_singleton] at h
    exact Or.inr ⟨Trie.node [], h, Or.inl rfl⟩
  | cons kt0 cs' ih =>
    intro kt h
    by_cases hk : kt0.1 = c
    · rw [show updAssoc c f (kt0 :: cs') = (kt0.1, f kt0.2) :: cs' from by
        simp [updAssoc, hk]] at h
      rcases List.mem_cons.mp h with h1 | h2
      · refine Or.inr ⟨kt0.2, ?_, Or.inr ?_⟩
        · rw [h1, hk]
        · rw [← hk]
          exact List.mem_cons_self _ _
      · exact Or.inl (List.mem_cons_of_mem _ h2)
    · rw [show updAssoc c f (kt0 :: cs') = kt0 :: updAssoc c f cs' from by
        simp [updAssoc, hk]] at h
      rcases List.mem_cons.mp h with h1 | h2
      · exact Or.inl (by rw [h1]; exact List.mem_cons_self _ _)
      · rcases ih kt h2 with h3 | ⟨t0, h4, h5⟩
        · exact Or.inl (List.mem_cons_of_mem _ h3)
        · rcases h5 with h5 | h5
          · exact Or.inr ⟨t0, h4, Or.inl h5⟩
          · exact Or.inr ⟨t0, h4, Or.inr (List.mem_cons_of_mem _ h5)⟩

/-- Keys after a child update: unchanged for an existing key, the new key
appended otherwise. -/
theorem updAssoc_keys (c : String) (f : Trie → Trie) :
    ∀ cs : List (String × Trie),
      (updAssoc c f cs).map Prod.fst
        = if c ∈ cs.map Prod.fst then cs.map Prod.fst else cs.map Prod.fst ++ [c] := by
  intro cs
  induction cs with
  | nil => simp [updAssoc]
  | cons kt0 cs' ih =>
    by_cases hk : kt0.1 = c
    · rw [show updAssoc c f (kt0 :: cs') = (kt0.1, f kt0.2) :: cs' from by
        simp [updAssoc, hk]]
      simp [hk]
    · rw [show updAssoc c f (kt0 :: cs') = kt0 :: updAssoc c f cs' from by
        simp [updAssoc, hk]]
      have hck : ¬ c = kt0.1 := fun h => hk h.symm
      simp only [List.map_cons, ih, List.mem_cons]
      by_cases hc : c ∈ cs'.map Prod.fst
      · simp [hc, hck]
      · simp [hc, hck]

/-- Insertion preserves trie well-formedness. -/
theorem WFT_insertClear (p : List String) :
    ∀ t : Trie, WFT t → WFT (insertClear p t) := by
  induction p with
  | nil => intro t _; exact WFT_empty
  | cons c rest ih =>
    intro t hwf
    cases t with
    | node cs =>
      cases hwf with
      | node _ hnd hch =>
        rw [show insertClear (c :: rest) (Trie.node cs)
            = Trie.node (updAssoc c (fun u => insertClear rest u) cs) from rfl]
        refine WFT.node _ ?_ ?_
        · rw [updAssoc_keys]
          by_cases hc : c ∈ cs.map Prod.fst
          · simp [hc, hnd]
          · simp only [if_neg hc]
            exact List.Nodup.append hnd (List.nodup_singleton c)
              (by simp [List.disjoint_singleton, hc])
        · intro kt hkt
          rcases mem_updAssoc c _ cs kt hkt with h1 | ⟨t0, h2, h3⟩
          · exact hch kt h1
          · rcases h3 with h3 | h3
            · rw [h2, h3]
              exact ih (Trie.node []) WFT_empty
            · rw [h2]
              exact ih t0 (hch (c, t0) h3)

/-- Membership after a stable insertion. -/
theorem mem_insLen (x : List String) :
    ∀ (ys : List (List String)) (q : List String), q ∈ insLen x ys ↔ q = x ∨ q ∈ ys := by
  intro ys
  induction ys with
  | nil => intro q; simp [insLen]
  | cons y ys' ih =>
    intro q
    by_cases h : y.length ≤ x.length
    · simp [insLen, h, List.mem_cons]
    · simp only [insLen, if_neg h, List.mem_cons, ih]
      tauto

/-- A stable insertion never produces the empty list. -/
theorem insLen_ne_nil (x : List String) : ∀ ys, insLen x ys ≠ [] := by
  intro ys
  cases ys with
  | nil => simp [insLen]
  | cons y ys' =>
    by_cases h : y.length ≤ x.length <;> simp [insLen, h]

/-- Stable insertion preserves the length-descending order. -/
theorem pairwise_insLen (x : List String) :
    ∀ ys : List (List String),
      ys.Pairwise (fun a b => b.length ≤ a.length) →
      (insLen x ys).Pairwise (fun a b => b.length ≤ a.length) := by
  intro ys
  induction ys with
  | nil => intro _; simp [insLen]
  | cons y ys' ih =>
    intro hp
    rcases List.pairwise_cons.mp hp with ⟨hy, hp'⟩
    by_cases h : y.length ≤ x.length
    · rw [show insLen x (y :: ys') = x :: y :: ys' from by simp [insLen, h]]
      refine List.pairwise_cons.mpr ⟨?_, hp⟩
      intro b hb
      rcases List.mem_cons.mp hb with rfl | hb'
      · exact h
      · exact le_trans (hy b hb') h
    · rw [show insLen x (y :: ys') = y :: insLen x ys' from by simp [insLen, h]]
      refine List.pairwise_cons.mpr ⟨?_, ih hp'⟩
      intro b hb
      rcases (mem_insLen x ys' b).mp hb with rfl | hb'
      · exact le_of_lt (lt_of_not_le h)
      · exact hy b hb'

/-- The modelled `sorted(paths, key=len, reverse=True)` is length-descending. -/
theorem sortLenDesc_pairwise :
    ∀ l : List (List String),
      (sortLenDesc l).Pairwise (fun a b => b.length ≤ a.length) := by
  intro l
  induction l with
  | nil => simp [sortLenDesc]
  | cons x xs ih => exact pairwise_insLen x _ ih

/-- Sorting preserves membership. -/
theorem mem_sortLenDesc : ∀ (l : List (List String)) (q), q ∈ sortLenDesc l ↔ q ∈ l := by
  intro l
  induction l with
  | nil => intro q; simp [sortLenDesc]
  | cons x xs ih =>
    intro q
    rw [show sortLenDesc (x :: xs) = insLen x (sortLenDesc xs) from rfl, mem_insLen]
    simp [ih]

/-- Sorting a nonempty list is nonempty. -/
theorem sortLenDesc_ne_nil : ∀ l : List (List String), l ≠ [] → sortLenDesc l ≠ [] := by
  intro l h
  cases l with
  | nil => exact absurd rfl h
  | cons x xs => exact insLen_ne_nil x _

/-- Adding a path that is not longer than any processed path turns the
description produced by `leaves_insertClear` into minimality over the
extended list: this is where the deepest-first processing order matters. -/
theorem min_step (l : List (List String)) (p : List String)
    (hlen : ∀ a ∈ l, p.length ≤ a.length) (q : List String) :
    (q = p ∨ ((q ∈ l ∧ ∀ r ∈ l, r <+: q → r = q) ∧ ¬ p <+: q ∧ ¬ q <+: p)) ↔
      (q ∈ l ++ [p] ∧ ∀ r ∈ l ++ [p], r <+: q → r = q) := by
  constructor
  · rintro (rfl | ⟨⟨hqm, hqmin⟩, hnp, hpn⟩)
    · refine ⟨List.mem_append.mpr (Or.inr (List.mem_singleton.mpr rfl)), ?_⟩
      intro r hr hrq
      rcases List.mem_append.mp hr with hrl | hrp
      · exact List.IsPrefix.eq_of_length hrq
          (le_antisymm (List.IsPrefix.length_le hrq) (hlen r hrl))
      · exact List.mem_singleton.mp hrp
    · refine ⟨List.mem_append.mpr (Or.inl hqm), ?_⟩
      intro r hr hrq
      rcases List.mem_append.mp hr with hrl | hrp
      · exact hqmin r hrl hrq
      · have hr2 := List.mem_singleton.mp hrp
        subst hr2
        exact absurd hrq hnp
  · rintro ⟨hqm, hqmin⟩
    rcases List.mem_append.mp hqm with hql | hqp
    · by_cases hqp' : q = p
      · exact Or.inl hqp'
      · right
        refine ⟨⟨hql, ?_⟩, ?_, ?_⟩
        · intro r hr hrq
          exact hqmin r (List.mem_append.mpr (Or.inl hr)) hrq
        · intro hp
          exact hqp'
            ((hqmin p (List.mem_append.mpr (Or.inr (List.mem_singleton.mpr rfl))) hp).symm)
        · intro hqp2
          apply hqp'
          exact List.IsPrefix.eq_of_length hqp2
            (le_antisymm (List.IsPrefix.length_le hqp2) (hlen q hql))
    · exact Or.inl (List.mem_singleton.mp hqp)

/-- The trie built by the insertion loop is well-formed. -/
theorem foldl_WFT (l : List (List String)) :
    WFT (l.foldl (fun t p => insertClear p t) (Trie.node [])) := by
  suffices h : ∀ t, WFT t → WFT (l.foldl (fun t p => insertClear p t) t) from h _ WFT_empty
  induction l with
  | nil => intro t ht; exact ht
  | cons p l' ih => intro t ht; exact ih _ (WFT_insertClear p t ht)

/-- Characterization of the insertion loop on a length-descending, nonempty
path list: the leaves of the final trie are exactly the paths of which no
other listed path is a proper ancestor. -/
theorem leaves_foldl (l : List (List String)) :
    l.Pairwise (fun a b => b.length ≤ a.length) → l ≠ [] →
      ∀ q, q ∈ leavesT (l.foldl (fun t p => insertClear p t) (Trie.node [])) ↔
        (q ∈ l ∧ ∀ r ∈ l, r <+: q → r = q) := by
  induction l using List.reverseRecOn with
  | nil => intro _ h; exact absurd rfl h
  | append_singleton l p ih =>
    intro hpw _ q
    rw [List.foldl_append]
    rw [show List.foldl (fun t p => insertClear p t)
        (List.foldl (fun t p => insertClear p t) (Trie.node []) l) [p]
        = insertClear p (List.foldl (fun t p => insertClear p t) (Trie.node []) l)
        from rfl]
    have hlen : ∀ a ∈ l, p.length ≤ a.length := by
      intro a ha
      exact (List.pairwise_append.mp hpw).2.2 a ha p (List.mem_singleton.mpr rfl)
    by_cases hln : l = []
    · subst hln
      rw [show List.foldl (fun t p => insertClear p t) (Trie.node [])
          ([] : List (List String)) = Trie.node [] from rfl]
      rw [leavesT_insertClear_empty]
      constructor
      · rintro rfl
        refine ⟨by simp, ?_⟩
        intro r hr _
        simpa using hr
      · rintro ⟨hq, _⟩
        simpa using hq
    · have hpw' : l.Pairwise (fun a b => b.length ≤ a.length) :=
        (List.pairwise_append.mp hpw).1
      rw [leaves_insertClear p _ (foldl_WFT l) q, ih hpw' hln q]
      exact min_step l p hlen q

/-- Characterization of the Common-Root Reducer on a nonempty input: its
output holds exactly the input paths of which no other input path is an
ancestor. -/
theorem fcr_mem (paths : List (List String)) (hne : paths ≠ []) (q : List String) :
    q ∈ _find_common_roots paths ↔
      (q ∈ paths ∧ ∀ r ∈ paths, r <+: q → r = q) := by
  unfold _find_common_roots
  rw [leaves_foldl (sortLenDesc paths) (sortLenDesc_pairwise paths)
    (sortLenDesc_ne_nil paths hne) q]
  constructor
  · rintro ⟨h1, h2⟩
    refine ⟨(mem_sortLenDesc paths q).mp h1, ?_⟩
    intro r hr
    exact h2 r ((mem_sortLenDesc paths r).mpr hr)
  · rintro ⟨h1, h2⟩
    refine ⟨(mem_sortLenDesc paths q).mpr h1, ?_⟩
    intro r hr
    exact h2 r ((mem_sortLenDesc paths r).mp hr)

/-- Every listed path has an ancestor (possibly itself) in the list of
which no other listed path is a proper ancestor. -/
theorem exists_min_root (paths : List (List String)) :
    ∀ (n : Nat) (x : List String), x.length ≤ n → x ∈ paths →
      ∃ r, (r ∈ paths ∧ ∀ b ∈ paths, b <+: r → b = r) ∧ r <+: x := by
  intro n
  induction n with
  | zero =>
    intro x hx hxm
    have hx0 : x = [] := List.length_eq_zero.mp (Nat.le_zero.mp hx)
    subst hx0
    refine ⟨[], ⟨hxm, ?_⟩, List.prefix_refl []⟩
    intro b hb hbp
    exact List.prefix_nil.mp hbp
  | succ n ih =>
    intro x hx hxm
    by_cases hmin : ∀ b ∈ paths, b <+: x → b = x
    · exact ⟨x, ⟨hxm, hmin⟩, List.prefix_refl x⟩
    · push_neg at hmin
      obtain ⟨b, hbm, hbp, hbne⟩ := hmin
      have hblt : b.length < x.length := by
        rcases lt_or_eq_of_le (List.IsPrefix.length_le hbp) with h | h
        · exact h
        · exact absurd (List.IsPrefix.eq_of_length hbp h) hbne
      obtain ⟨r, hr, hrb⟩ := ih b (Nat.le_of_lt_succ (lt_of_lt_of_le hblt hx)) hbm
      exact ⟨r, hr, hrb.trans hbp⟩

/-- C2 counterexample: the input set `{/a, /a/b, /a/b/c}` (as component
sequences) contains the ancestor `/a/b` with the path `/a/b/c` nested under
it, yet the output does not retain `/a/b` — it is itself nested under `/a`
and is reduced away. -/
theorem c2_reduce_cex :
    ( [ "", "a", "b"] : List String) ∈
        ([ [ "", "a"], [ "", "a", "b"], [ "", "a", "b", "c"]] : List (List String)) ∧
      ( [ "", "a", "b"] : List String) <+: [ "", "a", "b", "c"] ∧
      ( [ "", "a", "b"] : List String) ≠ [ "", "a", "b", "c"] ∧
      ( [ "", "a", "b", "c"] : List String) ∈
        ([ [ "", "a"], [ "", "a", "b"], [ "", "a", "b", "c"]] : List (List String)) ∧
      ( [ "", "a", "b"] : List String) ∉
        _find_common_roots [ [ "", "a"], [ "", "a", "b"], [ "", "a", "b", "c"]] :=
  ⟨by decide, ⟨[ "c"], rfl⟩, by decide, by decide, by decide⟩

/-- C2 (amended): for an input containing an ancestor with paths nested
under it, the output omits every input path nested under another input
path, retains the ancestor provided the ancestor is not itself nested under
another input path, covers every input path by some output root that is a
prefix of its component sequence, and no output root is a proper ancestor
of another. -/
theorem c2_reduce_amended (paths : List (List String)) (a : List String)
    (ha : a ∈ paths) (_hnested : ∃ x, x ∈ paths ∧ a <+: x ∧ a ≠ x) :
    (∀ x ∈ paths, (∃ b, b ∈ paths ∧ b <+: x ∧ b ≠ x) → x ∉ _find_common_roots paths) ∧
      ((∀ b ∈ paths, b <+: a → b = a) → a ∈ _find_common_roots paths) ∧
      (∀ x ∈ paths, ∃ r ∈ _find_common_roots paths, r <+: x) ∧
      (∀ r ∈ _find_common_roots paths, ∀ s ∈ _find_common_roots paths,
        r <+: s → r = s) := by
  have hne : paths ≠ [] := by
    intro h
    rw [h] at ha
    simp at ha
  refine ⟨?_, ?_, ?_, ?_⟩
  · rintro x _ ⟨b, hbm, hbp, hbne⟩ hmem
    rcases (fcr_mem paths hne x).mp hmem with ⟨_, hmin⟩
    exact hbne (hmin b hbm hbp)
  · intro hamin
    exact (fcr_mem paths hne a).mpr ⟨ha, hamin⟩
  · intro x hx
    obtain ⟨r, hr, hrx⟩ := exists_min_root paths x.length x le_rfl hx
    exact ⟨r, (fcr_mem paths hne r).mpr hr, hrx⟩
  · intro r hr s hs hrs
    rcases (fcr_mem paths hne s).mp hs with ⟨_, hsmin⟩
    exact hsmin r ((fcr_mem paths hne r).mp hr).1 hrs

/-- C2 witness: the set `{/a, /a/b}` with ancestor `/a`. -/
theorem c2_reduce_amended_witness :
    ( [ "", "a"] : List String) ∈ ([ [ "", "a"], [ "", "a", "b"]] : List (List String)) ∧
      ((∀ x ∈ ([ [ "", "a"], [ "", "a", "b"]] : List (List String)),
          (∃ b, b ∈ ([ [ "", "a"], [ "", "a", "b"]] : List (List String)) ∧
            b <+: x ∧ b ≠ x) →
          x ∉ _find_common_roots [ [ "", "a"], [ "", "a", "b"]]) ∧
        ((∀ b ∈ ([ [ "", "a"], [ "", "a", "b"]] : List (List String)),
            b <+: [ "", "a"] → b = [ "", "a"]) →
          ( [ "", "a"] : List String) ∈ _find_common_roots [ [ "", "a"], [ "", "a", "b"]]) ∧
        (∀ x ∈ ([ [ "", "a"], [ "", "a", "b"]] : List (List String)),
          ∃ r ∈ _find_common_roots [ [ "", "a"], [ "", "a", "b"]], r <+: x) ∧
        (∀ r ∈ _find_common_roots [ [ "", "a"], [ "", "a", "b"]],
          ∀ s ∈ _find_common_roots [ [ "", "a"], [ "", "a", "b"]], r <+: s → r = s)) :=
  ⟨by decide,
    c2_reduce_amended [ [ "", "a"], [ "", "a", "b"]] [ "", "a"] (by decide)
      ⟨[ "", "a", "b"], by decide, ⟨[ "b"], rfl⟩, by decide⟩⟩

/-- C3 counterexample: the empty set of paths is vacuously pairwise
disjoint, but the reducer maps it to the singleton of the empty component
sequence (Python returns `{''}`), not to the empty set. -/
theorem c3_reduce_cex :
    _find_common_roots ([] : List (List String)) = [([] : List String)] ∧
      _find_common_roots ([] : List (List String)) ≠ [] :=
  ⟨rfl, by decide⟩

/-- C3 (amended): on a nonempty set of pairwise-disjoint paths (no path's
component sequence a prefix of another's), the reducer acts as the
identity: its output has exactly the input paths as members. -/
theorem c3_reduce_identity_amended (paths : List (List String)) (hne : paths ≠ [])
    (hdisj : ∀ p ∈ paths, ∀ q ∈ paths, p <+: q → p = q) :
    ∀ x, x ∈ _find_common_roots paths ↔ x ∈ paths := by
  intro x
  rw [fcr_mem paths hne x]
  constructor
  · rintro ⟨h1, _⟩
    exact h1
  · intro h1
    exact ⟨h1, fun r hr hrx => hdisj r hr x h1 hrx⟩

/-- C3 witness: two disjoint absolute paths are returned unchanged. -/
theorem c3_reduce_identity_amended_witness :
    ([ [ "", "a"], [ "", "b"]] : List (List String)) ≠ [] ∧
      (∀ x, x ∈ _find_common_roots [ [ "", "a"], [ "", "b"]] ↔
        x ∈ ([ [ "", "a"], [ "", "b"]] : List (List String))) :=
  ⟨by decide, c3_reduce_identity_amended [ [ "", "a"], [ "", "b"]] (by decide) (by decide)⟩

/-- C1: the Restart Supervisor respawns the child exactly while its exit
code equals the sentinel 5 and returns the first non-sentinel exit code
unchanged: on a run of `n` sentinel exits followed by a final code `c ≠ 5`,
it spawns `n + 1` times and its result is `c`. -/
theorem c1_supervisor_respawn (n : Nat) (c : Int) (hc : c ≠ EXIT_CODE) :
    restart_with_reloader (List.replicate n EXIT_CODE ++ [c]) = some (n + 1, c) := by
  induction n with
  | zero => simp [restart_with_reloader, hc]
  | succ k ih => simp [List.replicate_succ, restart_with_reloader, ih]

/-- C1 witness: three sentinel exits then exit code 0 means four spawns and
result 0; one immediate exit code 1 means a single spawn and result 1. -/
theorem c1_supervisor_respawn_witness :
    (0 : Int) ≠ EXIT_CODE ∧
      restart_with_reloader (List.replicate 3 EXIT_CODE ++ [0]) = some (4, 0) ∧
      restart_with_reloader (List.replicate 0 EXIT_CODE ++ [1]) = some (1, 1) :=
  ⟨by decide, c1_supervisor_respawn 3 0 (by decide), c1_supervisor_respawn 0 1 (by decide)⟩

/-- C7 counterexample: the constructor argument −1 is negative (non-positive),
yet the effective tick interval is −1, not 1: Python `or` only replaces falsy
values, and a negative number is truthy. -/
theorem c7_interval_cex :
    (-1 : Int) ≤ 0 ∧ init_interval (some (-1)) ≠ 1 := by decide

/-- C7 (amended): an absent or zero `interval` coerces to 1; any nonzero
value — positive or negative — is kept unchanged. -/
theorem c7_interval_amended (i : Option Int) :
    ((i = none ∨ i = some 0) → init_interval i = 1) ∧
      (∀ v : Int, i = some v → v ≠ 0 → init_interval i = v) := by
  constructor
  · rintro (rfl | rfl) <;> simp [init_interval]
  · rintro v rfl hv
    simp [init_interval, hv]

/-- C7 witness: interval 0 coerces to 1, interval 7 is kept. -/
theorem c7_interval_amended_witness :
    init_interval (some 0) = 1 ∧ init_interval (some 7) = 7 :=
  ⟨(c7_interval_amended (some 0)).1 (Or.inr rfl),
   (c7_interval_amended (some 7)).2 7 rfl (by decide)⟩

/-- C10: a strategy name with no entry in the registry — any string other
than stat and auto, and in particular watchdog when the observer facility is
unavailable — yields a KeyError before any detector is constructed and
before any child is spawned; there is no fallback to the stat reloader. -/
theorem c10_unknown_strategy (avail : Bool) (s : String) (run_main : Bool)
    (h1 : s ≠ "stat") (h2 : s ≠ "auto") (h3 : s = "watchdog" → avail = false) :
    start avail s run_main = StartOutcome.keyError := by
  cases avail with
  | false => simp [start, reloaders, lookupA, h1, h2]
  | true =>
    have h3' : s ≠ "watchdog" := fun h => by simpa using h3 h
    simp [start, reloaders, lookupA, h1, h2, h3']

/-- C10 witness: requesting the watchdog strategy while the observer import
failed is a KeyError, not a fallback. -/
theorem c10_unknown_strategy_witness :
    ( "watchdog" : String) ≠ "stat" ∧ ( "watchdog" : String) ≠ "auto" ∧
      start false "watchdog" false = StartOutcome.keyError :=
  ⟨by decide, by decide,
   c10_unknown_strategy false "watchdog" false (by decide) (by decide) (fun _ => rfl)⟩

end Autoreload
